import Mathlib

/-!
# Verification of the period-sequence interval arithmetic core

Shallow embedding of the `Period` / `Sequence` core of the
`@georgevie/period-sequence` TypeScript library, together with proofs about
its relational predicates, constructors, transformations and the sorted
set-algebra operations on sequences.

Modelling conventions:
* JavaScript `number` timestamps and durations are modelled as `ℚ`
  (all values appearing here are exactly representable IEEE doubles, and the
  arithmetic the code performs on them — `+`, `-`, `min`, `max`, `* 0.5` —
  is exact on them, so `ℚ` models the runtime values exactly).
* A constructor that `throw`s is modelled as an `Option` returning `none`.
* JavaScript object references matter in exactly one place (the `Set`-based
  deduplication in `Sequence.union`); there, list elements are tagged with a
  `Nat` identity (`PRef`): two occurrences denote the same runtime object
  iff they carry the same tag. Everywhere else the code only reads the value
  fields, so plain `Period` values are used.
* `Array.prototype.sort` with the comparator `(a, b) => a.startTime - b.startTime`
  is a stable sort by the `startTime` key; a stable sort by a fixed key is
  unique as a function, so the stable insertion sort `sortByKey` below is an
  exact model of it.
-/

namespace PeriodSeq

/-- Model of `Bounds` enum from `core/types.ts` (numeric enum with four variants). -/
inductive Bounds where
  | IncludeStartExcludeEnd
  | ExcludeStartIncludeEnd
  | IncludeAll
  | ExcludeAll
deriving DecidableEq, Repr

/-- Model of `BOUNDS_BITS` lookup table from `core/FastBounds.ts`
(bit 0 = start inclusive, bit 1 = end inclusive). -/
def Bounds.bits : Bounds → Nat
  | .IncludeStartExcludeEnd => 1
  | .ExcludeStartIncludeEnd => 2
  | .IncludeAll => 3
  | .ExcludeAll => 0

/-- Model of `FastBounds.isStartInclusive`: single-bit check on the bounds bits. -/
def Bounds.isStartInclusive (b : Bounds) : Bool :=
  b.bits &&& 1 != 0

/-- Model of `FastBounds.isEndInclusive`: single-bit check on the bounds bits. -/
def Bounds.isEndInclusive (b : Bounds) : Bool :=
  b.bits &&& 2 != 0

/-- The `Period` value object: two numeric timestamps plus a bounds kind
(`core/Period.ts`, fields `_startTime`, `_endTime`, `_bounds`). -/
structure Period where
  startTime : ℚ
  endTime : ℚ
  bounds : Bounds
deriving DecidableEq, Repr

/-- The `Period` constructor (`core/Period.ts` lines 15–26): normalizes the
inputs to numeric timestamps and throws `InvalidRange`
(`'Start date must be before end date'`) iff `startTime >= endTime`. -/
def mkPeriod (s e : ℚ) (b : Bounds) : Option Period :=
  if s ≥ e then none else some ⟨s, e, b⟩

/-- Model of `_normalizeDateToMidnightUTC` from the day-precision `Period` variant
(`core/FastBounds.ts` lines 231–251) applied to an integer epoch-millisecond
timestamp: `Date.UTC(getUTCFullYear, getUTCMonth, getUTCDate)` reconstructs
the midnight-UTC instant of the timestamp's UTC calendar day, i.e. it floors
the timestamp to a multiple of 86 400 000 ms (JavaScript time has no leap
seconds, so every UTC day is exactly 86 400 000 ms). -/
def normalizeDateToMidnightUTC (t : ℤ) : ℤ :=
  86400000 * (t.fdiv 86400000)

/-- The day-precision `Period` constructor (`core/FastBounds.ts` lines
214–226): floors both inputs to midnight UTC, then applies the same
ordering check as the base constructor. -/
def mkPeriodDay (s e : ℤ) (b : Bounds) : Option Period :=
  mkPeriod (normalizeDateToMidnightUTC s : ℤ) (normalizeDateToMidnightUTC e : ℤ) b

namespace Period

/-- Model of `Period.overlaps` (`core/Period.ts` lines 89–110): touch cases first
(both-sides-inclusive rule), then the fast separation test. -/
def overlaps (a b : Period) : Bool :=
  if a.endTime = b.startTime then
    a.bounds.isEndInclusive && b.bounds.isStartInclusive
  else if b.endTime = a.startTime then
    b.bounds.isEndInclusive && a.bounds.isStartInclusive
  else if a.endTime < b.startTime ∨ b.endTime < a.startTime then
    false
  else
    true

/-- Model of `Period.touches` (`core/Period.ts` lines 152–154): shared endpoint value,
irrespective of inclusivity. -/
def touches (a b : Period) : Bool :=
  decide (a.endTime = b.startTime) || decide (b.endTime = a.startTime)

/-- Model of `Period.abuts` (`core/Period.ts` lines 160–168): fast reject when the
endpoints do not touch, otherwise touch-without-overlap. -/
def abuts (a b : Period) : Bool :=
  if a.endTime ≠ b.startTime ∧ b.endTime ≠ a.startTime then
    false
  else
    !(overlaps a b)

/-- Model of `Period.equals` (`core/Period.ts` lines 174–178): value equality on
`(startTime, endTime, bounds)`. -/
def pEquals (a b : Period) : Bool :=
  decide (a.startTime = b.startTime) && decide (a.endTime = b.endTime) &&
    decide (a.bounds = b.bounds)

/-- Model of `Period.isBefore` (`core/Period.ts` lines 277–279). -/
def isBefore (a b : Period) : Bool :=
  decide (a.endTime ≤ b.startTime)

/-- Model of `Period.isAfter` (`core/Period.ts` lines 285–287). -/
def isAfter (a b : Period) : Bool :=
  decide (a.startTime ≥ b.endTime)

/-- Model of `Period.startingOn` (`core/Period.ts` lines 184–186): re-anchor start
through the constructor. -/
def startingOn (p : Period) (s : ℚ) : Option Period :=
  mkPeriod s p.endTime p.bounds

/-- Model of `Period.endingOn` (`core/Period.ts` lines 192–194). -/
def endingOn (p : Period) (e : ℚ) : Option Period :=
  mkPeriod p.startTime e p.bounds

/-- Model of `Period.withBounds` (`core/Period.ts` lines 200–202). -/
def withBounds (p : Period) (b : Bounds) : Option Period :=
  mkPeriod p.startTime p.endTime b

/-- Model of `Period.withDuration` (`core/Period.ts` lines 237–240):
`end = start + duration.milliseconds`. -/
def withDuration (p : Period) (d : ℚ) : Option Period :=
  mkPeriod p.startTime (p.startTime + d) p.bounds

/-- Model of `Period.move` (`core/Period.ts` lines 246–250): shift both endpoints
forward by the duration. -/
def move (p : Period) (d : ℚ) : Option Period :=
  mkPeriod (p.startTime + d) (p.endTime + d) p.bounds

/-- Model of `Period.moveBackward` (`core/Period.ts` lines 256–260). -/
def moveBackward (p : Period) (d : ℚ) : Option Period :=
  mkPeriod (p.startTime - d) (p.endTime - d) p.bounds

/-- Model of `Period.expand` (`core/Period.ts` lines 266–271):
`halfDuration = duration.milliseconds * 0.5`, subtracted from the start and
added to the end. -/
def expand (p : Period) (d : ℚ) : Option Period :=
  mkPeriod (p.startTime - d * (1 / 2)) (p.endTime + d * (1 / 2)) p.bounds

/-- Model of `Period.canMergeConsecutiveDays` from the day-precision variant
(`core/FastBounds.ts` lines 639–659): touching periods are mergeable when
*either* touching boundary is inclusive. -/
def canMergeConsecutiveDays (a b : Period) : Bool :=
  if !(touches a b) then
    false
  else if a.endTime = b.startTime then
    a.bounds.isEndInclusive || b.bounds.isStartInclusive
  else if b.endTime = a.startTime then
    b.bounds.isEndInclusive || a.bounds.isStartInclusive
  else
    false

/-- Model of `Period.union` from the day-precision variant (`core/FastBounds.ts`
lines 623–634): `null` unless the periods overlap or are mergeable
consecutive days, otherwise the envelope with this period's bounds. -/
def union (a b : Period) : Option Period :=
  if !(overlaps a b) && !(canMergeConsecutiveDays a b) then
    none
  else
    some ⟨min a.startTime b.startTime, max a.endTime b.endTime, a.bounds⟩

end Period

/-! ## Sequence (`dist/index.js`, class `Sequence`)

A `Sequence` is modelled by its frozen backing array `_periods`
(a `List Period`). The `_sorted` flag and the write-once caches are
performance bookkeeping that never changes the values any queried
operation returns, so they are not carried in the model. -/

/-- One step of the stable insertion sort by key `key`: place `x` before the
first element whose key is `≥ key x` (so earlier-inserted elements with an
equal key stay in front of nothing, and later ones stay behind). -/
def insertByKey (key : α → ℚ) (x : α) : List α → List α
  | [] => [x]
  | y :: ys => if key x ≤ key y then x :: y :: ys else y :: insertByKey key x ys

/-- Stable sort by the numeric key `key`. `Array.prototype.sort` with the
comparator `(a, b) => key(a) - key(b)` is a stable sort by `key`; any two
stable sorts by the same key coincide, so this insertion sort is an exact
model of the JavaScript sort call. -/
def sortByKey (key : α → ℚ) : List α → List α
  | [] => []
  | x :: xs => insertByKey key x (sortByKey key xs)

/-- The `Sequence` constructor (`dist/index.js` lines 281–323): when not
order-preserving, copy the input and stable-sort it by
`(a, b) => a.startTime - b.startTime`; when order-preserving, keep the input
order. -/
def seqCtor (periods : List Period) (preserveOrder : Bool) : List Period :=
  if preserveOrder then periods else sortByKey Period.startTime periods

/-- Model of `Sequence.sortByDuration` (`dist/index.js` lines 538–544):
`sort((a, b) => (a.endTime - a.startTime) - (b.endTime - b.startTime))`,
wrapped order-preserving. -/
def sortByDuration (periods : List Period) : List Period :=
  seqCtor (sortByKey (fun p => p.endTime - p.startTime) periods) true

/-- Model of `Sequence.equals` (`dist/index.js` lines 550–562): same count and
element-wise `Period.equals` in iteration order. -/
def seqEquals (xs ys : List Period) : Bool :=
  decide (xs.length = ys.length) &&
    (List.zip xs ys).all (fun pq => Period.pEquals pq.1 pq.2)

/-- Model of `Sequence.boundaries` (`dist/index.js` lines 411–435) on a non-empty
backing list `first :: rest`: from the first element's start to the maximum
end time scanned across all elements, with the first element's bounds.
(The scan starts from the last element's end and maximizes over the whole
list, which is the maximum over all end times.) -/
def seqBoundaries (first : Period) (rest : List Period) : Period :=
  ⟨first.startTime,
   (first :: rest).foldl (fun m p => max m p.endTime)
     ((first :: rest).getLastD first).endTime,
   first.bounds⟩

/-- The inner scan of `Sequence.subtract` (`dist/index.js` lines 686–695):
walk `other`'s members in order, breaking as soon as a member's start
reaches or passes `p`'s end, and reporting whether an overlap was found
before that. -/
def overlapScan (p : Period) : List Period → Bool
  | [] => false
  | q :: qs =>
    if q.startTime ≥ p.endTime then false
    else if Period.overlaps p q then true
    else overlapScan p qs

/-- The per-member keep test of `Sequence.subtract` (`dist/index.js` lines
676–700): keep outright when entirely outside `other`'s bounding span,
otherwise keep iff the early-terminating scan finds no overlap. -/
def subtractKeep (ob : Period) (ys : List Period) (p : Period) : Bool :=
  if p.endTime ≤ ob.startTime ∨ p.startTime ≥ ob.endTime then true
  else !(overlapScan p ys)

/-- Model of `Sequence.subtract` (`dist/index.js` lines 665–703): fast paths for
empty operands, then the pruned overlap filter, assembled order-preserving. -/
def subtract (xs ys : List Period) : List Period :=
  if xs.isEmpty then []
  else
    match ys with
    | [] => xs
    | y :: ys' =>
      seqCtor (xs.filter (subtractKeep (seqBoundaries y ys') (y :: ys'))) true

/-- The two-pointer loop of `Sequence.intersect` (`dist/index.js` lines
632–655): emit `⟨max starts, min ends, a.bounds⟩` whenever
`maxStart < minEnd`, then advance the pointer whose period ends first. -/
def intersectLoop : List Period → List Period → List Period
  | [], _ => []
  | _ :: _, [] => []
  | a :: as_, b :: bs =>
    let maxStart := max a.startTime b.startTime
    let minEnd := min a.endTime b.endTime
    let emitted := if maxStart < minEnd then [(⟨maxStart, minEnd, a.bounds⟩ : Period)] else []
    if a.endTime ≤ b.endTime then
      emitted ++ intersectLoop as_ (b :: bs)
    else
      emitted ++ intersectLoop (a :: as_) bs
termination_by xs ys => xs.length + ys.length

/-- Model of `Sequence.intersect` (`dist/index.js` lines 623–658): empty fast path,
two-pointer sweep, result wrapped order-preserving. -/
def intersect (xs ys : List Period) : List Period :=
  if xs.isEmpty ∨ ys.isEmpty then [] else seqCtor (intersectLoop xs ys) true

/-- The sweep of `Sequence.merge` (`dist/index.js` lines 715–741):
accumulate `current`; when the next period overlaps or is
calendar-mergeable, replace `current` with `current.union(next)` (with the
dead-code `null` fallback kept as in the source), otherwise flush. -/
def mergeLoop (current : Period) : List Period → List Period
  | [] => [current]
  | next :: rest =>
    if Period.overlaps current next || Period.canMergeConsecutiveDays current next then
      match Period.union current next with
      | some m => mergeLoop m rest
      | none => current :: mergeLoop next rest
    else
      current :: mergeLoop next rest

/-- Model of `Sequence.merge` (`dist/index.js` lines 710–743): sequences with at most
one member are returned unchanged; otherwise the sweep runs and the result
is wrapped order-preserving. -/
def merge : List Period → List Period
  | [] => []
  | [p] => [p]
  | p :: rest => seqCtor (mergeLoop p rest) true

/-- A JavaScript object reference to a `Period`: `id` is the object
identity (two occurrences are the same runtime object iff their `id`s are
equal) and `val` the immutable value it holds. Only `Sequence.union`
observes identity (through its `Set<Period>`); all other operations read
only the value. -/
structure PRef where
  id : Nat
  val : Period
deriving DecidableEq, Repr

/-- The `seenPeriods : Set<Period>` dedup loop of `Sequence.union`
(`dist/index.js` lines 590–610) over the concatenation of both backing
arrays: keep the first occurrence of each object reference.
`Set.has`/`Set.add` on objects use reference identity, i.e. the `id` tag. -/
def unionDedup (seen : List Nat) : List PRef → List PRef
  | [] => []
  | r :: rs =>
    if r.id ∈ seen then unionDedup seen rs
    else r :: unionDedup (r.id :: seen) rs

/-- Model of `Sequence.union` (`dist/index.js` lines 583–615): fast path returns the
other operand when one is empty; otherwise dedup the concatenation by
reference identity and construct a sorting (`preserveOrder = false`)
sequence from it. -/
def union (xs ys : List PRef) : List PRef :=
  if xs.isEmpty then ys
  else if ys.isEmpty then xs
  else sortByKey (fun r => r.val.startTime) (unionDedup [] (xs ++ ys))

/-- Negative-index normalization shared by `insert` / `remove` / `set`
(`dist/index.js` lines 806–808 etc.): negative indices count from the end. -/
def normIdx (len : Nat) (i : ℤ) : ℤ :=
  if i < 0 then len + i else i

/-- Model of `Sequence.get` (`dist/index.js` lines 367–372): throws `IndexOutOfRange`
when `index < 0 || index >= length` — no negative-index normalization. -/
def seqGet (xs : List Period) (i : ℤ) : Option Period :=
  if i < 0 ∨ (xs.length : ℤ) ≤ i then none else xs.get? i.toNat

/-- Model of `Sequence.insert` (`dist/index.js` lines 802–821): normalize negative
indices, fail outside `[0, length]`, otherwise splice the new period in. -/
def seqInsert (xs : List Period) (i : ℤ) (p : Period) : Option (List Period) :=
  let j := normIdx xs.length i
  if j < 0 ∨ j > (xs.length : ℤ) then none
  else some (seqCtor (xs.take j.toNat ++ p :: xs.drop j.toNat) true)

/-- Model of `Sequence.remove` (`dist/index.js` lines 828–851): normalize negative
indices, fail outside `[0, length)`, otherwise return the removed period
together with the new backing list the caller's binding is repointed to. -/
def seqRemove (xs : List Period) (i : ℤ) : Option (Period × List Period) :=
  let j := normIdx xs.length i
  if j < 0 ∨ j ≥ (xs.length : ℤ) then none
  else (xs.get? j.toNat).map
    (fun x => (x, seqCtor (xs.take j.toNat ++ xs.drop (j.toNat + 1)) true))

/-- Model of `Sequence.set` (`dist/index.js` lines 859–875): normalize negative
indices, fail outside `[0, length)`, otherwise replace in place. -/
def seqSet (xs : List Period) (i : ℤ) (p : Period) : Option (List Period) :=
  let j := normIdx xs.length i
  if j < 0 ∨ j ≥ (xs.length : ℤ) then none
  else some (seqCtor (xs.set j.toNat p) true)

/-- Sortedness by ascending `startTime` — the invariant the library's
sorting constructor establishes and its set-algebra operations assume. -/
def SortedByStart (l : List Period) : Prop :=
  l.Sorted (fun a b => a.startTime ≤ b.startTime)

instance : DecidablePred SortedByStart := fun l =>
  inferInstanceAs (Decidable (l.Pairwise _))

/-- Validity of every member: an interval's start is strictly before its
end (the constructor invariant of `Period`). -/
def AllValid (l : List Period) : Prop :=
  ∀ p ∈ l, p.startTime < p.endTime

instance : DecidablePred AllValid := fun l =>
  inferInstanceAs (Decidable (∀ p ∈ l, p.startTime < p.endTime))

/-! ## Specification-side definitions and concrete instances -/

/-- The per-member keep test of `subtract`, written as the amended
specification reads: keep when outside `other`'s bounding span, or when no
member of `other` that starts strictly before the member's end overlaps
it. (This is the spec-side counterpart of `subtractKeep`, whose scan
terminates early.) -/
def keepSpec : List Period → Period → Bool
  | [], _ => true
  | y :: ys', p =>
    decide (p.endTime ≤ (seqBoundaries y ys').startTime) ||
    decide (p.startTime ≥ (seqBoundaries y ys').endTime) ||
    !((y :: ys').any (fun q => decide (q.startTime < p.endTime) && Period.overlaps p q))

/-- Separation of two valid, start-ordered periods: either a strict gap
between `a`'s end and `b`'s start, or an exclusive–exclusive touch. On
valid inputs with `a.startTime ≤ b.startTime` this is exactly the
condition under which the merge sweep flushes instead of fusing. -/
def sep (a b : Period) : Prop :=
  a.endTime < b.startTime ∨
    (a.endTime = b.startTime ∧ a.bounds.isEndInclusive = false ∧
      b.bounds.isStartInclusive = false)

/-- A JavaScript number holds an exact integer count of milliseconds. -/
def IsIntTs (x : ℚ) : Prop :=
  ∃ n : ℤ, x = (n : ℚ)

/-- Model of `2024-01-01T00:00Z` in epoch milliseconds. -/
def jan01ms : ℚ := 1704067200000

/-- Model of `2024-01-10T00:00Z` in epoch milliseconds. -/
def jan10ms : ℚ := 1704844800000

/-- Model of `2024-01-15T00:00Z` in epoch milliseconds. -/
def jan15ms : ℚ := 1705276800000

/-- Model of `2024-01-25T00:00Z` in epoch milliseconds. -/
def jan25ms : ℚ := 1706140800000

/-- Model of `2024-02-01T00:00Z` in epoch milliseconds. -/
def feb01ms : ℚ := 1706745600000

/-- Model of `2024-02-15T00:00Z` in epoch milliseconds. -/
def feb15ms : ℚ := 1707955200000

/-- Model of `[2024-01-01, 2024-01-15)`. -/
def pJan01Jan15 : Period := ⟨jan01ms, jan15ms, .IncludeStartExcludeEnd⟩

/-- Model of `[2024-02-01, 2024-02-15)`. -/
def pFeb01Feb15 : Period := ⟨feb01ms, feb15ms, .IncludeStartExcludeEnd⟩

/-- Model of `[2024-01-10, 2024-01-25)`. -/
def pJan10Jan25 : Period := ⟨jan10ms, jan25ms, .IncludeStartExcludeEnd⟩

/-- Sequence A of the spec's end-to-end scenarios (its sorted backing list). -/
def seqA : List Period := [pJan01Jan15, pFeb01Feb15]

/-- Sequence B of the spec's end-to-end scenarios. -/
def seqB : List Period := [pJan10Jan25]

/-- Sequence A's backing references (three independently constructed
objects, hence three distinct identities). -/
def refsA : List PRef := [⟨0, pJan01Jan15⟩, ⟨1, pFeb01Feb15⟩]

/-- Sequence B's backing references. -/
def refsB : List PRef := [⟨2, pJan10Jan25⟩]

/-! ## Lemmas about the stable sort -/

theorem insertByKey_perm (key : α → ℚ) (x : α) (l : List α) :
    (insertByKey key x l).Perm (x :: l) := by
  induction l with
  | nil => simp [insertByKey]
  | cons y ys ih =>
    simp only [insertByKey]
    split
    · exact List.Perm.refl _
    · exact (ih.cons y).trans (List.Perm.swap x y ys)

theorem sortByKey_perm (key : α → ℚ) (l : List α) :
    (sortByKey key l).Perm l := by
  induction l with
  | nil => simp [sortByKey]
  | cons x xs ih =>
    exact (insertByKey_perm key x (sortByKey key xs)).trans (ih.cons x)

theorem insertByKey_sorted (key : α → ℚ) (x : α) (l : List α)
    (hl : l.Sorted (fun a b => key a ≤ key b)) :
    (insertByKey key x l).Sorted (fun a b => key a ≤ key b) := by
  induction l with
  | nil => simp [insertByKey]
  | cons y ys ih =>
    rw [List.sorted_cons] at hl
    simp only [insertByKey]
    split
    · rename_i hxy
      rw [List.sorted_cons]
      refine ⟨?_, List.sorted_cons.mpr hl⟩
      intro b hb
      rcases List.mem_cons.mp hb with rfl | hb
      · exact hxy
      · exact le_trans hxy (hl.1 b hb)
    · rename_i hxy
      push_neg at hxy
      rw [List.sorted_cons]
      refine ⟨?_, ih hl.2⟩
      intro b hb
      have := (insertByKey_perm key x ys).mem_iff.mp hb
      rcases List.mem_cons.mp this with rfl | hb2
      · exact le_of_lt hxy
      · exact hl.1 b hb2

theorem sortByKey_sorted (key : α → ℚ) (l : List α) :
    (sortByKey key l).Sorted (fun a b => key a ≤ key b) := by
  induction l with
  | nil => simp [sortByKey]
  | cons x xs ih => exact insertByKey_sorted key x _ ih

theorem insertByKey_filter_eq (key : α → ℚ) (x : α) (l : List α) (t : ℚ)
    (hx : key x = t) :
    (insertByKey key x l).filter (fun a => decide (key a = t)) =
      x :: l.filter (fun a => decide (key a = t)) := by
  induction l with
  | nil => simp [insertByKey, hx]
  | cons y ys ih =>
    simp only [insertByKey]
    split
    · simp [List.filter_cons, hx]
    · rename_i hxy
      push_neg at hxy
      have hy : ¬ (key y = t) := by
        intro h
        rw [← hx] at h
        exact absurd h.ge (not_le.mpr hxy)
      simp [List.filter_cons, hy, ih]

theorem insertByKey_filter_ne (key : α → ℚ) (x : α) (l : List α) (t : ℚ)
    (hx : key x ≠ t) :
    (insertByKey key x l).filter (fun a => decide (key a = t)) =
      l.filter (fun a => decide (key a = t)) := by
  induction l with
  | nil => simp [insertByKey, hx]
  | cons y ys ih =>
    simp only [insertByKey]
    split
    · simp [List.filter_cons, hx]
    · simp [List.filter_cons, ih]

/-- Stability of the sort: for each key value, the subsequence of elements
carrying that key is unchanged (insertion order is preserved among equal
keys). -/
theorem sortByKey_filter_key (key : α → ℚ) (l : List α) (t : ℚ) :
    (sortByKey key l).filter (fun a => decide (key a = t)) =
      l.filter (fun a => decide (key a = t)) := by
  induction l with
  | nil => simp [sortByKey]
  | cons x xs ih =>
    simp only [sortByKey]
    by_cases hx : key x = t
    · rw [insertByKey_filter_eq key x _ t hx, ih, List.filter_cons]
      simp [hx]
    · rw [insertByKey_filter_ne key x _ t hx, ih, List.filter_cons]
      simp [hx]

theorem seqCtor_false_sorted (l : List Period) : SortedByStart (seqCtor l false) := by
  simpa [seqCtor, SortedByStart] using sortByKey_sorted Period.startTime l

/-! ## Lemmas about `subtract` -/

/-- On a start-sorted `other` list, the early-terminating scan detects an
overlap exactly when some member starting strictly before `p`'s end
overlaps `p` (members starting at or after `p.endTime` are skipped by the
`break`, even when an inclusive touch would make `overlaps` true). -/
theorem overlapScan_eq_any (p : Period) (ys : List Period) (hs : SortedByStart ys) :
    overlapScan p ys =
      ys.any (fun q => decide (q.startTime < p.endTime) && Period.overlaps p q) := by
  induction ys with
  | nil => simp [overlapScan]
  | cons q qs ih =>
    rw [SortedByStart, List.sorted_cons] at hs
    simp only [overlapScan, List.any_cons]
    split
    · rename_i h1
      have hq : decide (q.startTime < p.endTime) = false := by
        simp only [decide_eq_false_iff_not, not_lt]
        exact h1
      rw [hq]
      have : qs.any (fun q => decide (q.startTime < p.endTime) && Period.overlaps p q)
          = false := by
        rw [List.any_eq_false]
        intro x hx
        have : q.startTime ≤ x.startTime := hs.1 x hx
        simp only [Bool.and_eq_true, decide_eq_true_eq, not_and]
        intro hlt
        exact absurd (lt_of_le_of_lt (le_trans h1 this) hlt) (lt_irrefl _)
      rw [this]
      simp
    · rename_i h1
      push_neg at h1
      have hq : decide (q.startTime < p.endTime) = true := by simpa using h1
      split
      · rename_i h2
        rw [hq, h2]
        simp
      · rename_i h2
        rw [hq, Bool.eq_false_iff.mpr h2, ih hs.2]
        simp

theorem subtractKeep_eq_keepSpec (y : Period) (ys' : List Period) (p : Period)
    (hs : SortedByStart (y :: ys')) :
    subtractKeep (seqBoundaries y ys') (y :: ys') p = keepSpec (y :: ys') p := by
  simp only [subtractKeep, keepSpec]
  split
  · rename_i h
    rcases h with h | h
    · simp [h]
    · simp [h]
  · rename_i h
    push_neg at h
    rw [overlapScan_eq_any p _ hs]
    have h1 : decide (p.endTime ≤ (seqBoundaries y ys').startTime) = false := by
      simpa using h.1
    have h2 : decide (p.startTime ≥ (seqBoundaries y ys').endTime) = false := by
      simpa using h.2
    rw [h1, h2]
    simp

/-- Claim C1 (corrected): on a start-sorted subtrahend, `subtract` returns
exactly the members of the minuend that pass `keepSpec`, in their original
relative order — a member is kept when it lies entirely outside the
subtrahend's bounding span, or when no subtrahend member that starts
strictly before the member's end overlaps it. (The claim's "overlap no
member" is weakened: an overlap that exists only through an inclusive touch
with a member starting at or after the member's end, or entirely at or past
the bounding span's end, is never tested, and such members are kept.) -/
theorem subtract_eq_filter (xs ys : List Period) (hs : SortedByStart ys) :
    subtract xs ys = xs.filter (keepSpec ys) := by
  cases xs with
  | nil => simp [subtract]
  | cons x xs' =>
    cases ys with
    | nil =>
      simp only [subtract, List.isEmpty_cons, Bool.false_eq_true, not_false_eq_true,
        if_false]
      exact (List.filter_eq_self.mpr (fun p _ => rfl)).symm
    | cons y ys' =>
      simp only [subtract, List.isEmpty_cons, seqCtor, if_neg, Bool.false_eq_true,
        not_false_eq_true, if_true]
      rw [List.filter_congr]
      intro p _
      exact subtractKeep_eq_keepSpec y ys' p hs

/-! ## Lemmas about `intersect` -/

/-- Every period the two-pointer loop emits is the clipped intersection of
one member of each operand, with the first operand's bounds, and the pair
satisfies the strict `maxStart < minEnd` guard. -/
theorem intersectLoop_mem (xs ys : List Period) (r : Period)
    (hr : r ∈ intersectLoop xs ys) :
    ∃ a ∈ xs, ∃ b ∈ ys,
      max a.startTime b.startTime < min a.endTime b.endTime ∧
      r = ⟨max a.startTime b.startTime, min a.endTime b.endTime, a.bounds⟩ := by
  induction xs, ys using intersectLoop.induct with
  | case1 ys => simp [intersectLoop] at hr
  | case2 a as_ => simp [intersectLoop] at hr
  | case3 a as_ b bs hadv ih =>
    rw [intersectLoop] at hr
    simp only [hadv, if_true] at hr
    rcases List.mem_append.mp hr with hemit | hrec
    · refine ⟨a, List.mem_cons_self a as_, b, List.mem_cons_self b bs, ?_⟩
      by_cases hlt : max a.startTime b.startTime < min a.endTime b.endTime
      · simp only [hlt, if_true, List.mem_singleton] at hemit
        exact ⟨hlt, hemit⟩
      · simp [hlt] at hemit
    · obtain ⟨a2, ha2, b2, hb2, hg, heq⟩ := ih hrec
      exact ⟨a2, List.mem_cons_of_mem a ha2, b2, hb2, hg, heq⟩
  | case4 a as_ b bs hadv ih =>
    rw [intersectLoop] at hr
    simp only [hadv, if_false] at hr
    rcases List.mem_append.mp hr with hemit | hrec
    · refine ⟨a, List.mem_cons_self a as_, b, List.mem_cons_self b bs, ?_⟩
      by_cases hlt : max a.startTime b.startTime < min a.endTime b.endTime
      · simp only [hlt, if_true, List.mem_singleton] at hemit
        exact ⟨hlt, hemit⟩
      · simp [hlt] at hemit
    · obtain ⟨a2, ha2, b2, hb2, hg, heq⟩ := ih hrec
      exact ⟨a2, ha2, b2, List.mem_cons_of_mem b hb2, hg, heq⟩

/-- On start-sorted operands, everything the loop emits starts no earlier
than the later of the two current heads' starts. -/
theorem intersectLoop_start_lb (xs ys : List Period)
    (hx : SortedByStart xs) (hy : SortedByStart ys) :
    ∀ r ∈ intersectLoop xs ys, ∀ a ∈ xs.head?, ∀ b ∈ ys.head?,
      max a.startTime b.startTime ≤ r.startTime := by
  induction xs, ys using intersectLoop.induct with
  | case1 ys => simp [intersectLoop]
  | case2 a as_ => simp [intersectLoop]
  | case3 a as_ b bs hadv ih =>
    intro r hr a0 ha0 b0 hb0
    simp only [List.head?_cons, Option.mem_def, Option.some.injEq] at ha0 hb0
    subst ha0; subst hb0
    rw [intersectLoop] at hr
    simp only [hadv, if_true] at hr
    rcases List.mem_append.mp hr with hemit | hrec
    · by_cases hlt : max a.startTime b.startTime < min a.endTime b.endTime
      · simp only [hlt, if_true, List.mem_singleton] at hemit
        subst hemit
        exact le_refl _
      · simp [hlt] at hemit
    · cases as_ with
      | nil => simp [intersectLoop] at hrec
      | cons a2 as2 =>
        have hx2 := (List.sorted_cons.mp hx).2
        have h12 : a.startTime ≤ a2.startTime :=
          (List.sorted_cons.mp hx).1 a2 (List.mem_cons_self a2 as2)
        have := ih hx2 hy r hrec a2 (by simp) b (by simp)
        calc max a.startTime b.startTime ≤ max a2.startTime b.startTime := by
              exact max_le_max h12 (le_refl _)
          _ ≤ r.startTime := this
  | case4 a as_ b bs hadv ih =>
    intro r hr a0 ha0 b0 hb0
    simp only [List.head?_cons, Option.mem_def, Option.some.injEq] at ha0 hb0
    subst ha0; subst hb0
    rw [intersectLoop] at hr
    simp only [hadv, if_false] at hr
    rcases List.mem_append.mp hr with hemit | hrec
    · by_cases hlt : max a.startTime b.startTime < min a.endTime b.endTime
      · simp only [hlt, if_true, List.mem_singleton] at hemit
        subst hemit
        exact le_refl _
      · simp [hlt] at hemit
    · cases bs with
      | nil => simp [intersectLoop] at hrec
      | cons b2 bs2 =>
        have hy2 := (List.sorted_cons.mp hy).2
        have h12 : b.startTime ≤ b2.startTime :=
          (List.sorted_cons.mp hy).1 b2 (List.mem_cons_self b2 bs2)
        have := ih hx hy2 r hrec a (by simp) b2 (by simp)
        calc max a.startTime b.startTime ≤ max a.startTime b2.startTime := by
              exact max_le_max (le_refl _) h12
          _ ≤ r.startTime := this

/-- On start-sorted operands the two-pointer loop's output is start-sorted. -/
theorem intersectLoop_sorted (xs ys : List Period)
    (hx : SortedByStart xs) (hy : SortedByStart ys) :
    SortedByStart (intersectLoop xs ys) := by
  induction xs, ys using intersectLoop.induct with
  | case1 ys => simp [intersectLoop, SortedByStart]
  | case2 a as_ => simp [intersectLoop, SortedByStart]
  | case3 a as_ b bs hadv ih =>
    have hx2 := (List.sorted_cons.mp hx).2
    have ihs := ih hx2 hy
    rw [intersectLoop]
    simp only [hadv, if_true]
    by_cases hlt : max a.startTime b.startTime < min a.endTime b.endTime
    · simp only [hlt, if_true, List.singleton_append]
      rw [SortedByStart, List.sorted_cons]
      refine ⟨?_, ihs⟩
      intro x hxm
      cases as_ with
      | nil => simp [intersectLoop] at hxm
      | cons a2 as2 =>
        have h12 : a.startTime ≤ a2.startTime :=
          (List.sorted_cons.mp hx).1 a2 (List.mem_cons_self a2 as2)
        have := intersectLoop_start_lb (a2 :: as2) (b :: bs) hx2 hy x hxm a2 (by simp)
          b (by simp)
        calc (max a.startTime b.startTime : ℚ) ≤ max a2.startTime b.startTime :=
              max_le_max h12 (le_refl _)
          _ ≤ x.startTime := this
    · simpa [hlt] using ihs
  | case4 a as_ b bs hadv ih =>
    have hy2 := (List.sorted_cons.mp hy).2
    have ihs := ih hx hy2
    rw [intersectLoop]
    simp only [hadv, if_false]
    by_cases hlt : max a.startTime b.startTime < min a.endTime b.endTime
    · simp only [hlt, if_true, List.singleton_append]
      rw [SortedByStart, List.sorted_cons]
      refine ⟨?_, ihs⟩
      intro x hxm
      cases bs with
      | nil => simp [intersectLoop] at hxm
      | cons b2 bs2 =>
        have h12 : b.startTime ≤ b2.startTime :=
          (List.sorted_cons.mp hy).1 b2 (List.mem_cons_self b2 bs2)
        have := intersectLoop_start_lb (a :: as_) (b2 :: bs2) hx hy2 x hxm a (by simp)
          b2 (by simp)
        calc (max a.startTime b.startTime : ℚ) ≤ max a.startTime b2.startTime :=
              max_le_max (le_refl _) h12
          _ ≤ x.startTime := this
    · simpa [hlt] using ihs

/-! ## Lemmas about `merge` -/

theorem mergeCond_false_iff (a b : Period) (_ha : a.startTime < a.endTime)
    (hb : b.startTime < b.endTime) (hab : a.startTime ≤ b.startTime) :
    ((Period.overlaps a b || Period.canMergeConsecutiveDays a b) = false) ↔ sep a b := by
  by_cases h1 : a.endTime = b.startTime
  · have hlt : ¬ (a.endTime < b.startTime) := by rw [h1]; exact lt_irrefl _
    cases hae : a.bounds.isEndInclusive <;> cases hbs : b.bounds.isStartInclusive <;>
      simp [Period.overlaps, Period.canMergeConsecutiveDays, Period.touches, sep,
        h1, hlt, hae, hbs]
  · have hne2 : ¬ (b.endTime = a.startTime) := by intro h; linarith
    have hbe : ¬ (b.endTime < a.startTime) := by linarith
    by_cases h3 : a.endTime < b.startTime <;>
      simp [Period.overlaps, Period.canMergeConsecutiveDays, Period.touches, sep,
        h1, hne2, hbe, h3]

theorem mergeLoop_of_chain (rest : List Period) :
    ∀ c, (c :: rest).Chain'
        (fun a b => (Period.overlaps a b || Period.canMergeConsecutiveDays a b) = false) →
      mergeLoop c rest = c :: rest := by
  induction rest with
  | nil => intro c _; rfl
  | cons n rs ih =>
    intro c hch
    rw [List.chain'_cons] at hch
    simp only [mergeLoop]
    rw [if_neg (by simp [hch.1])]
    rw [ih n hch.2]

/-- Full specification of the merge sweep on valid, start-sorted input:
the output is non-empty, its head keeps the accumulator's start and bounds
with an end at least the accumulator's, every output member is valid, the
output is start-sorted, and no two adjacent output members satisfy the
sweep's fuse condition. -/
theorem mergeLoop_spec (rest : List Period) :
    ∀ c : Period, c.startTime < c.endTime → AllValid rest → SortedByStart (c :: rest) →
    ∃ h t, mergeLoop c rest = h :: t ∧
      h.startTime = c.startTime ∧ h.bounds = c.bounds ∧ c.endTime ≤ h.endTime ∧
      AllValid (mergeLoop c rest) ∧ SortedByStart (mergeLoop c rest) ∧
      (mergeLoop c rest).Chain'
        (fun a b => (Period.overlaps a b || Period.canMergeConsecutiveDays a b) = false) := by
  induction rest with
  | nil =>
    intro c hc _ _
    refine ⟨c, [], rfl, rfl, rfl, le_refl _, ?_, ?_, ?_⟩
    · intro p hp
      simp only [mergeLoop, List.mem_singleton] at hp
      exact hp ▸ hc
    · simp [mergeLoop, SortedByStart]
    · simp [mergeLoop]
  | cons n rs ih =>
    intro c hc hv hs
    have hsrest := List.sorted_cons.mp hs
    have hcn : c.startTime ≤ n.startTime := hsrest.1 n (List.mem_cons_self n rs)
    have hn : n.startTime < n.endTime := hv n (List.mem_cons_self n rs)
    have hvrs : AllValid rs := fun p hp => hv p (List.mem_cons_of_mem _ hp)
    by_cases hcond : (Period.overlaps c n || Period.canMergeConsecutiveDays c n) = true
    · -- fuse: the accumulator becomes the envelope with the accumulator's bounds
      have hun : Period.union c n =
          some ⟨min c.startTime n.startTime, max c.endTime n.endTime, c.bounds⟩ := by
        have hguard : (!(Period.overlaps c n) && !(Period.canMergeConsecutiveDays c n))
            = false := by
          cases hov : Period.overlaps c n <;>
            cases hcm : Period.canMergeConsecutiveDays c n <;> simp_all
        simp [Period.union, hguard]
      have hstep : mergeLoop c (n :: rs) =
          mergeLoop ⟨min c.startTime n.startTime, max c.endTime n.endTime, c.bounds⟩ rs := by
        simp only [mergeLoop]
        rw [if_pos hcond, hun]
      set m : Period :=
        ⟨min c.startTime n.startTime, max c.endTime n.endTime, c.bounds⟩ with hm
      have hmstart : m.startTime = c.startTime := min_eq_left hcn
      have hmvalid : m.startTime < m.endTime := by
        rw [hmstart]
        exact lt_of_lt_of_le hc (le_max_left _ _)
      have hsorted2 : SortedByStart (m :: rs) := by
        rw [SortedByStart, List.sorted_cons]
        constructor
        · intro x hx
          rw [hmstart]
          exact hsrest.1 x (List.mem_cons_of_mem _ hx)
        · exact (List.sorted_cons.mp hsrest.2).2
      obtain ⟨h, t, heq, h1, h2, h3, h4, h5, h6⟩ := ih m hmvalid hvrs hsorted2
      refine ⟨h, t, hstep.trans heq, ?_, ?_, ?_, ?_, ?_, ?_⟩
      · rw [h1, hmstart]
      · rw [h2]
      · exact le_trans (le_trans (le_max_left _ _) h3) (le_refl _)
      · rw [hstep]; exact h4
      · rw [hstep]; exact h5
      · rw [hstep]; exact h6
    · -- flush: `c` is emitted and the sweep restarts at `n`
      have hcondf : (Period.overlaps c n || Period.canMergeConsecutiveDays c n) = false :=
        Bool.eq_false_iff.mpr hcond
      have hsep : sep c n := (mergeCond_false_iff c n hc hn hcn).mp hcondf
      have hsorted2 : SortedByStart (n :: rs) := hsrest.2
      obtain ⟨h, t, heq, h1, h2, h3, h4, h5, h6⟩ := ih n hn hvrs hsorted2
      have hstep : mergeLoop c (n :: rs) = c :: mergeLoop n rs := by
        simp only [mergeLoop]
        rw [if_neg (by simp [hcondf])]
      have hvalid_h : h.startTime < h.endTime := by
        refine h4 h ?_
        rw [heq]
        exact List.mem_cons_self h t
      have hch : c.startTime ≤ h.startTime := by rw [h1]; exact hcn
      have hsep_ch : sep c h := by
        rcases hsep with hlt | ⟨heq2, he, hs2⟩
        · exact Or.inl (by rw [h1]; exact hlt)
        · exact Or.inr ⟨by rw [h1]; exact heq2, he, by rw [h2]; exact hs2⟩
      have hcond_ch :
          (Period.overlaps c h || Period.canMergeConsecutiveDays c h) = false :=
        (mergeCond_false_iff c h hc hvalid_h hch).mpr hsep_ch
      refine ⟨c, mergeLoop n rs, hstep, rfl, rfl, le_refl _, ?_, ?_, ?_⟩
      · intro p hp
        rw [hstep] at hp
        rcases List.mem_cons.mp hp with rfl | hp2
        · exact hc
        · exact h4 p hp2
      · rw [hstep, SortedByStart, List.sorted_cons]
        refine ⟨?_, h5⟩
        intro x hx
        rw [heq] at hx
        rcases List.mem_cons.mp hx with rfl | hx2
        · exact hch
        · have hhx : h.startTime ≤ x.startTime := by
            rw [heq] at h5
            exact (List.sorted_cons.mp h5).1 x hx2
          exact le_trans hch hhx
      · rw [hstep, heq, List.chain'_cons]
        exact ⟨hcond_ch, heq ▸ h6⟩

theorem merge_eq_mergeLoop (p n : Period) (rs : List Period) :
    merge (p :: n :: rs) = mergeLoop p (n :: rs) := by
  simp [merge, seqCtor]

theorem merge_sorted_of (l : List Period) (hv : AllValid l) (hs : SortedByStart l) :
    SortedByStart (merge l) := by
  match l with
  | [] => simpa [merge] using hs
  | [p] => simpa [merge] using hs
  | p :: n :: rs =>
    rw [merge_eq_mergeLoop]
    obtain ⟨h, t, heq, h1, h2, h3, h4, h5, h6⟩ :=
      mergeLoop_spec (n :: rs) p (hv p (List.mem_cons_self p _))
        (fun q hq => hv q (List.mem_cons_of_mem _ hq)) hs
    exact h5

theorem merge_fixpoint (l : List Period) (hv : AllValid l) (hs : SortedByStart l) :
    merge (merge l) = merge l := by
  match l with
  | [] => rfl
  | [p] => rfl
  | p :: n :: rs =>
    rw [merge_eq_mergeLoop]
    obtain ⟨h, t, heq, h1, h2, h3, h4, h5, h6⟩ :=
      mergeLoop_spec (n :: rs) p (hv p (List.mem_cons_self p _))
        (fun q hq => hv q (List.mem_cons_of_mem _ hq)) hs
    rw [heq]
    cases t with
    | nil => rfl
    | cons x ts =>
      rw [merge_eq_mergeLoop h x ts]
      exact mergeLoop_of_chain (x :: ts) h (heq ▸ h6)

/-! ## Lemmas about `union`'s reference-identity dedup -/

theorem unionDedup_sublist (l : List PRef) :
    ∀ seen, (unionDedup seen l).Sublist l := by
  induction l with
  | nil => intro seen; simp [unionDedup]
  | cons r rs ih =>
    intro seen
    simp only [unionDedup]
    split
    · exact (ih seen).trans (List.sublist_cons_self r rs)
    · exact (ih (r.id :: seen)).cons₂ r

theorem unionDedup_id_not_mem (l : List PRef) :
    ∀ seen, ∀ r ∈ unionDedup seen l, r.id ∉ seen := by
  induction l with
  | nil => intro seen r hr; simp [unionDedup] at hr
  | cons s rs ih =>
    intro seen r hr
    simp only [unionDedup] at hr
    split at hr
    · exact ih seen r hr
    · rcases List.mem_cons.mp hr with rfl | hr2
      · assumption
      · have := ih (s.id :: seen) r hr2
        exact fun hmem => this (List.mem_cons_of_mem _ hmem)

theorem unionDedup_ids_nodup (l : List PRef) :
    ∀ seen, ((unionDedup seen l).map PRef.id).Nodup := by
  induction l with
  | nil => intro seen; simp [unionDedup]
  | cons s rs ih =>
    intro seen
    simp only [unionDedup]
    split
    · exact ih seen
    · rw [List.map_cons, List.nodup_cons]
      constructor
      · intro hmem
        obtain ⟨r, hr, hid⟩ := List.mem_map.mp hmem
        have := unionDedup_id_not_mem rs (s.id :: seen) r hr
        exact this (hid ▸ List.mem_cons_self s.id seen)
      · exact ih (s.id :: seen)

theorem unionDedup_covers (l : List PRef) :
    ∀ seen, ∀ r ∈ l, r.id ∉ seen → ∃ r2 ∈ unionDedup seen l, r2.id = r.id := by
  induction l with
  | nil => intro seen r hr; simp at hr
  | cons s rs ih =>
    intro seen r hr hseen
    simp only [unionDedup]
    split
    · rename_i hs_seen
      rcases List.mem_cons.mp hr with rfl | hr2
      · exact absurd hs_seen hseen
      · exact ih seen r hr2 hseen
    · rcases List.mem_cons.mp hr with rfl | hr2
      · exact ⟨r, List.mem_cons_self r _, rfl⟩
      · by_cases hid : r.id = s.id
        · exact ⟨s, List.mem_cons_self s _, hid.symm⟩
        · obtain ⟨r2, hr2m, hr2id⟩ := ih (s.id :: seen) r hr2 (by
            intro hmem
            rcases List.mem_cons.mp hmem with h | h
            · exact hid h
            · exact hseen h)
          exact ⟨r2, List.mem_cons_of_mem _ hr2m, hr2id⟩

theorem seqEquals_refl (l : List Period) : seqEquals l l = true := by
  have hz : ∀ pq ∈ l.zip l, pq.1 = pq.2 := by
    induction l with
    | nil => intro pq hpq; simp at hpq
    | cons x xs ih =>
      intro pq hpq
      rw [List.zip_cons_cons] at hpq
      rcases List.mem_cons.mp hpq with rfl | h
      · rfl
      · exact ih pq h
  simp only [seqEquals, Bool.and_eq_true, decide_eq_true_eq, List.all_eq_true]
  refine ⟨trivial, ?_⟩
  intro pq hpq
  rw [hz pq hpq]
  simp [Period.pEquals]

/-! ## Constructor helper lemmas -/

theorem mkPeriod_isSome (s e : ℚ) (b : Bounds) : (mkPeriod s e b).isSome ↔ s < e := by
  rw [mkPeriod]
  split
  · rename_i h
    simp only [Option.isSome_none, Bool.false_eq_true, false_iff, not_lt]
    exact h
  · rename_i h
    push_neg at h
    simp only [Option.isSome_some, true_iff]
    exact h

theorem mkPeriod_some_fields (s e : ℚ) (b : Bounds) (q : Period)
    (h : mkPeriod s e b = some q) :
    q.startTime = s ∧ q.endTime = e ∧ q.bounds = b := by
  rw [mkPeriod] at h
  split at h
  · exact absurd h (by simp)
  · obtain rfl := Option.some.injEq _ _ ▸ h.symm
    exact ⟨rfl, rfl, rfl⟩

theorem IsIntTs.add {x y : ℚ} (hx : IsIntTs x) (hy : IsIntTs y) : IsIntTs (x + y) := by
  obtain ⟨m, rfl⟩ := hx
  obtain ⟨n, rfl⟩ := hy
  exact ⟨m + n, by push_cast; ring⟩

theorem IsIntTs.sub {x y : ℚ} (hx : IsIntTs x) (hy : IsIntTs y) : IsIntTs (x - y) := by
  obtain ⟨m, rfl⟩ := hx
  obtain ⟨n, rfl⟩ := hy
  exact ⟨m - n, by push_cast; ring⟩

/-! ## Claim theorems -/

/-- Claim C3 (confirmed): when two intervals touch exactly
(`a.endTime = b.startTime`), `overlaps` holds iff `a`'s end boundary and
`b`'s start boundary are both inclusive, `touches` holds regardless of
inclusivity, and `abuts` equals `touches && !overlaps`. -/
theorem overlaps_touch_semantics (a b : Period) (h : a.endTime = b.startTime) :
    Period.overlaps a b = (a.bounds.isEndInclusive && b.bounds.isStartInclusive) ∧
    Period.touches a b = true ∧
    Period.abuts a b = (Period.touches a b && !(Period.overlaps a b)) := by
  refine ⟨?_, ?_, ?_⟩
  · simp [Period.overlaps, h]
  · simp [Period.touches, h]
  · simp [Period.abuts, Period.touches, h]

/-- Witness for C3 at `[0,10)` and `[10,20)`: `overlaps` is false, `touches`
is true, `abuts` is true. -/
theorem overlaps_touch_semantics_witness :
    Period.overlaps ⟨0, 10, .IncludeStartExcludeEnd⟩ ⟨10, 20, .IncludeStartExcludeEnd⟩
        = false ∧
    Period.touches ⟨0, 10, .IncludeStartExcludeEnd⟩ ⟨10, 20, .IncludeStartExcludeEnd⟩
        = true ∧
    Period.abuts ⟨0, 10, .IncludeStartExcludeEnd⟩ ⟨10, 20, .IncludeStartExcludeEnd⟩
        = true := by
  have h := overlaps_touch_semantics ⟨0, 10, .IncludeStartExcludeEnd⟩
    ⟨10, 20, .IncludeStartExcludeEnd⟩ rfl
  refine ⟨?_, h.2.1, ?_⟩
  · rw [h.1]; decide
  · rw [h.2.2, h.2.1, h.1]; decide

/-- Claim C7 (confirmed): interval construction — direct or through any
derived transformation — fails (`InvalidRange`, modelled as `none`) exactly
when the normalized start is not strictly before the normalized end, and
succeeds otherwise (no other failure path); the day-precision variant
floors both inputs to midnight UTC before the check, so two inputs on the
same UTC calendar day always fail. -/
theorem invalid_range_iff :
    (∀ (s e : ℚ) (b : Bounds), (mkPeriod s e b).isSome ↔ s < e) ∧
    (∀ (p : Period) (s : ℚ), (p.startingOn s).isSome ↔ s < p.endTime) ∧
    (∀ (p : Period) (e : ℚ), (p.endingOn e).isSome ↔ p.startTime < e) ∧
    (∀ (p : Period) (b : Bounds), (p.withBounds b).isSome ↔ p.startTime < p.endTime) ∧
    (∀ (p : Period) (d : ℚ),
      (p.withDuration d).isSome ↔ p.startTime < p.startTime + d) ∧
    (∀ (p : Period) (d : ℚ), (p.move d).isSome ↔ p.startTime + d < p.endTime + d) ∧
    (∀ (p : Period) (d : ℚ),
      (p.moveBackward d).isSome ↔ p.startTime - d < p.endTime - d) ∧
    (∀ (p : Period) (d : ℚ),
      (p.expand d).isSome ↔ p.startTime - d * (1 / 2) < p.endTime + d * (1 / 2)) ∧
    (∀ (s e : ℤ) (b : Bounds), (mkPeriodDay s e b).isSome ↔
      normalizeDateToMidnightUTC s < normalizeDateToMidnightUTC e) ∧
    (∀ (s e : ℤ) (b : Bounds),
      s.fdiv 86400000 = e.fdiv 86400000 → mkPeriodDay s e b = none) := by
  refine ⟨fun s e b => mkPeriod_isSome s e b,
    fun p s => mkPeriod_isSome _ _ _,
    fun p e => mkPeriod_isSome _ _ _,
    fun p b => mkPeriod_isSome _ _ _,
    fun p d => mkPeriod_isSome _ _ _,
    fun p d => mkPeriod_isSome _ _ _,
    fun p d => mkPeriod_isSome _ _ _,
    fun p d => mkPeriod_isSome _ _ _,
    fun s e b => ?_, fun s e b hday => ?_⟩
  · rw [mkPeriodDay, mkPeriod_isSome]
    exact Int.cast_lt
  · have hnorm : normalizeDateToMidnightUTC s = normalizeDateToMidnightUTC e := by
      rw [normalizeDateToMidnightUTC, normalizeDateToMidnightUTC, hday]
    rw [mkPeriodDay, hnorm, mkPeriod]
    rw [if_pos (le_refl _)]

/-- Witness for C7: a valid construction succeeds, and two timestamps on the
same UTC day (5 ms and 86 399 999 ms past the epoch) make the day-precision
constructor fail. -/
theorem invalid_range_iff_witness :
    (mkPeriod 0 1 .IncludeStartExcludeEnd).isSome = true ∧
    (5 : ℤ).fdiv 86400000 = (86399999 : ℤ).fdiv 86400000 ∧
    mkPeriodDay 5 86399999 .IncludeStartExcludeEnd = none := by
  refine ⟨(invalid_range_iff.1 0 1 .IncludeStartExcludeEnd).mpr (by norm_num),
    by decide, ?_⟩
  exact invalid_range_iff.2.2.2.2.2.2.2.2.2 5 86399999 .IncludeStartExcludeEnd (by decide)

/-- Counterexample to C8: `expand` halves the duration; with the
integer-millisecond duration 1 it produces the half-integer timestamps
`-1/2` and `21/2` from the integer-timestamp interval `[0, 10)`. -/
theorem expand_odd_duration_cex :
    IsIntTs (0 : ℚ) ∧ IsIntTs (10 : ℚ) ∧ IsIntTs (1 : ℚ) ∧
    Period.expand ⟨0, 10, .IncludeStartExcludeEnd⟩ 1 =
      some ⟨-(1 / 2), 21 / 2, .IncludeStartExcludeEnd⟩ ∧
    ¬ IsIntTs (-(1 / 2) : ℚ) := by
  refine ⟨⟨0, by norm_num⟩, ⟨10, by norm_num⟩, ⟨1, by norm_num⟩, ?_, ?_⟩
  · rw [Period.expand, mkPeriod]
    norm_num
  · rintro ⟨n, hn⟩
    have h2 : ((2 * n : ℤ) : ℚ) = -1 := by
      push_cast
      rw [← hn]
      ring
    have h3 : (2 * n : ℤ) = -1 := by exact_mod_cast h2
    omega

/-- Claim C8 (corrected): transformations on integer-timestamp intervals
with integer-millisecond durations keep timestamps integral, except
`expand`, which adds half the duration to each side and therefore keeps
integrality only when half the duration is itself an integer number of
milliseconds (even durations). -/
theorem integer_timestamp_preservation (p : Period)
    (hps : IsIntTs p.startTime) (hpe : IsIntTs p.endTime) (d : ℚ) (hd : IsIntTs d) :
    (∀ s, IsIntTs s → ∀ q, p.startingOn s = some q →
      IsIntTs q.startTime ∧ IsIntTs q.endTime) ∧
    (∀ e, IsIntTs e → ∀ q, p.endingOn e = some q →
      IsIntTs q.startTime ∧ IsIntTs q.endTime) ∧
    (∀ b q, p.withBounds b = some q → IsIntTs q.startTime ∧ IsIntTs q.endTime) ∧
    (∀ q, p.withDuration d = some q → IsIntTs q.startTime ∧ IsIntTs q.endTime) ∧
    (∀ q, p.move d = some q → IsIntTs q.startTime ∧ IsIntTs q.endTime) ∧
    (∀ q, p.moveBackward d = some q → IsIntTs q.startTime ∧ IsIntTs q.endTime) ∧
    (IsIntTs (d * (1 / 2)) → ∀ q, p.expand d = some q →
      IsIntTs q.startTime ∧ IsIntTs q.endTime) := by
  refine ⟨?_, ?_, ?_, ?_, ?_, ?_, ?_⟩
  · intro s hs q hq
    obtain ⟨h1, h2, _⟩ := mkPeriod_some_fields _ _ _ _ hq
    exact ⟨h1 ▸ hs, h2 ▸ hpe⟩
  · intro e he q hq
    obtain ⟨h1, h2, _⟩ := mkPeriod_some_fields _ _ _ _ hq
    exact ⟨h1 ▸ hps, h2 ▸ he⟩
  · intro b q hq
    obtain ⟨h1, h2, _⟩ := mkPeriod_some_fields _ _ _ _ hq
    exact ⟨h1 ▸ hps, h2 ▸ hpe⟩
  · intro q hq
    obtain ⟨h1, h2, _⟩ := mkPeriod_some_fields _ _ _ _ hq
    exact ⟨h1 ▸ hps, h2 ▸ hps.add hd⟩
  · intro q hq
    obtain ⟨h1, h2, _⟩ := mkPeriod_some_fields _ _ _ _ hq
    exact ⟨h1 ▸ hps.add hd, h2 ▸ hpe.add hd⟩
  · intro q hq
    obtain ⟨h1, h2, _⟩ := mkPeriod_some_fields _ _ _ _ hq
    exact ⟨h1 ▸ hps.sub hd, h2 ▸ hpe.sub hd⟩
  · intro hd2 q hq
    obtain ⟨h1, h2, _⟩ := mkPeriod_some_fields _ _ _ _ hq
    exact ⟨h1 ▸ hps.sub hd2, h2 ▸ hpe.add hd2⟩

/-- Witness for the corrected C8 at `[0, 10)` with the even duration 2:
`move` yields `[2, 12)` and `expand` yields `[-1, 11)`, all integral. -/
theorem integer_timestamp_preservation_witness :
    Period.move ⟨0, 10, .IncludeStartExcludeEnd⟩ 2 =
      some ⟨2, 12, .IncludeStartExcludeEnd⟩ ∧
    Period.expand ⟨0, 10, .IncludeStartExcludeEnd⟩ 2 =
      some ⟨-1, 11, .IncludeStartExcludeEnd⟩ ∧
    (IsIntTs ((2 : ℚ)) ∧ IsIntTs ((12 : ℚ))) ∧
    (IsIntTs ((-1 : ℚ)) ∧ IsIntTs ((11 : ℚ))) := by
  have hmv : Period.move ⟨0, 10, .IncludeStartExcludeEnd⟩ 2 =
      some ⟨2, 12, .IncludeStartExcludeEnd⟩ := by
    rw [Period.move, mkPeriod]; norm_num
  have hex : Period.expand ⟨0, 10, .IncludeStartExcludeEnd⟩ 2 =
      some ⟨-1, 11, .IncludeStartExcludeEnd⟩ := by
    rw [Period.expand, mkPeriod]; norm_num
  have h := integer_timestamp_preservation ⟨0, 10, .IncludeStartExcludeEnd⟩
    ⟨0, by norm_num⟩ ⟨10, by norm_num⟩ 2 ⟨2, by norm_num⟩
  refine ⟨hmv, hex, ?_, ?_⟩
  · exact h.2.2.2.2.1 _ hmv
  · exact h.2.2.2.2.2.2 ⟨1, by norm_num⟩ _ hex

/-- Claim C10 (confirmed): every interval `intersect` emits satisfies the
strict `maxStart < minEnd` guard, so its internal `Period` construction can
never raise `InvalidRange` and every emitted interval has strictly positive
length; a pair overlapping only at a shared inclusive endpoint — such as
`[0,10]` and `[10,20]`, for which `overlaps` is true — contributes nothing. -/
theorem intersect_emissions_valid :
    (∀ xs ys : List Period, ∀ r ∈ intersect xs ys,
      r.startTime < r.endTime ∧ (mkPeriod r.startTime r.endTime r.bounds).isSome) ∧
    (Period.overlaps ⟨0, 10, .IncludeAll⟩ ⟨10, 20, .IncludeAll⟩ = true ∧
      intersect [⟨0, 10, .IncludeAll⟩] [⟨10, 20, .IncludeAll⟩] = []) := by
  constructor
  · intro xs ys r hr
    rw [intersect] at hr
    split at hr
    · simp at hr
    · simp only [seqCtor, if_true] at hr
      obtain ⟨a, _, b, _, hg, heq⟩ := intersectLoop_mem xs ys r hr
      subst heq
      exact ⟨hg, (mkPeriod_isSome _ _ _).mpr hg⟩
  · constructor
    · decide
    · norm_num [intersect, seqCtor, intersectLoop]

/-- Witness for C10 at a genuinely intersecting pair: the emitted interval
`[5, 10)` is strictly positive and constructible. -/
theorem intersect_emissions_valid_witness :
    (⟨5, 10, .IncludeStartExcludeEnd⟩ : Period) ∈
      intersect [⟨0, 10, .IncludeStartExcludeEnd⟩] [⟨5, 20, .IncludeStartExcludeEnd⟩] ∧
    ((5 : ℚ) < 10 ∧
      (mkPeriod (5 : ℚ) 10 Bounds.IncludeStartExcludeEnd).isSome) := by
  have hmem : (⟨5, 10, .IncludeStartExcludeEnd⟩ : Period) ∈
      intersect [⟨0, 10, .IncludeStartExcludeEnd⟩] [⟨5, 20, .IncludeStartExcludeEnd⟩] := by
    norm_num [intersect, seqCtor, intersectLoop]
  have h := intersect_emissions_valid.1 [⟨0, 10, .IncludeStartExcludeEnd⟩]
    [⟨5, 20, .IncludeStartExcludeEnd⟩] ⟨5, 10, .IncludeStartExcludeEnd⟩ hmem
  exact ⟨hmem, h⟩

/-- Counterexample to C1 as stated: `[0,10]` (both-inclusive) overlaps
`[10,20]` (both-inclusive), yet `subtract` keeps it — the boundary fast
path (and the scan's early `break`) never tests the touching pair, so the
result is not "the members that overlap no member of the subtrahend". -/
theorem subtract_touching_overlap_cex :
    Period.overlaps ⟨0, 10, .IncludeAll⟩ ⟨10, 20, .IncludeAll⟩ = true ∧
    subtract [⟨0, 10, .IncludeAll⟩] [⟨10, 20, .IncludeAll⟩] = [⟨0, 10, .IncludeAll⟩] := by
  decide

/-- Witness for the corrected C1 at the spec's scenario: `A.subtract(B)` is
the `keepSpec` filter of A and equals `{[2024-02-01, 2024-02-15)}`. -/
theorem subtract_eq_filter_witness :
    SortedByStart seqB ∧
    subtract seqA seqB = seqA.filter (keepSpec seqB) ∧
    subtract seqA seqB = [pFeb01Feb15] := by
  exact ⟨by decide, subtract_eq_filter seqA seqB (by decide), by decide⟩

/-- Claim C5 (confirmed): on start-sorted operands, every interval
`intersect` emits is `⟨max of starts, min of ends⟩` with the first
operand's bounds for some member pair satisfying the strict guard, and the
result is in ascending start order. -/
theorem intersect_sound_and_sorted (xs ys : List Period)
    (hx : SortedByStart xs) (hy : SortedByStart ys) :
    (∀ r ∈ intersect xs ys, ∃ a ∈ xs, ∃ b ∈ ys,
      max a.startTime b.startTime < min a.endTime b.endTime ∧
      r = ⟨max a.startTime b.startTime, min a.endTime b.endTime, a.bounds⟩) ∧
    SortedByStart (intersect xs ys) := by
  constructor
  · intro r hr
    rw [intersect] at hr
    split at hr
    · simp at hr
    · simp only [seqCtor, if_true] at hr
      exact intersectLoop_mem xs ys r hr
  · rw [intersect]
    split
    · simp [SortedByStart]
    · simp only [seqCtor, if_true]
      exact intersectLoop_sorted xs ys hx hy

/-- Witness for C5 at the spec's scenario: `A.intersect(B)` is start-sorted
and equals `{[2024-01-10, 2024-01-15)}`. -/
theorem intersect_sound_and_sorted_witness :
    SortedByStart seqA ∧ SortedByStart seqB ∧
    SortedByStart (intersect seqA seqB) ∧
    intersect seqA seqB = [⟨jan10ms, jan15ms, .IncludeStartExcludeEnd⟩] := by
  refine ⟨by decide, by decide,
    (intersect_sound_and_sorted seqA seqB (by decide) (by decide)).2, ?_⟩
  norm_num [intersect, seqCtor, intersectLoop, seqA, seqB, pJan01Jan15,
    pFeb01Feb15, pJan10Jan25, jan01ms, jan10ms, jan15ms, jan25ms, feb01ms, feb15ms]

/-- Counterexample to C9 as stated: `get(-1)` on a one-element sequence
fails although the negative-index normalization of `-1` is `0`, which lies
inside `[0, count)` — `get` does not normalize negative indices. -/
theorem seqGet_negative_index_cex :
    seqGet [⟨0, 10, .IncludeStartExcludeEnd⟩] (-1) = none ∧
    normIdx 1 (-1) = 0 ∧ (0 : ℤ) ≤ 0 ∧ (0 : ℤ) < 1 := by
  decide

/-- Claim C9 (corrected): `insert`, `remove` and `set` fail exactly when
the negative-index-normalized index falls outside `[0, count]` (insert)
resp. `[0, count)` (remove, set); `get` performs no normalization and fails
exactly when the raw index is outside `[0, count)`. -/
theorem positional_index_guards :
    (∀ (xs : List Period) (i : ℤ),
      (seqGet xs i).isSome ↔ 0 ≤ i ∧ i < (xs.length : ℤ)) ∧
    (∀ (xs : List Period) (i : ℤ) (p : Period),
      (seqInsert xs i p).isSome ↔
        0 ≤ normIdx xs.length i ∧ normIdx xs.length i ≤ (xs.length : ℤ)) ∧
    (∀ (xs : List Period) (i : ℤ),
      (seqRemove xs i).isSome ↔
        0 ≤ normIdx xs.length i ∧ normIdx xs.length i < (xs.length : ℤ)) ∧
    (∀ (xs : List Period) (i : ℤ) (p : Period),
      (seqSet xs i p).isSome ↔
        0 ≤ normIdx xs.length i ∧ normIdx xs.length i < (xs.length : ℤ)) := by
  refine ⟨fun xs i => ?_, fun xs i p => ?_, fun xs i => ?_, fun xs i p => ?_⟩
  · rw [seqGet]
    split
    · rename_i h
      simp only [Option.isSome_none, Bool.false_eq_true, false_iff]
      omega
    · rename_i h
      push_neg at h
      have hlt : i.toNat < xs.length := by omega
      rw [List.get?_eq_get hlt]
      simp only [Option.isSome_some, true_iff]
      omega
  · rw [seqInsert]
    split
    · rename_i h
      simp only [Option.isSome_none, Bool.false_eq_true, false_iff]
      omega
    · rename_i h
      push_neg at h
      simp only [Option.isSome_some, true_iff]
      omega
  · rw [seqRemove]
    split
    · rename_i h
      simp only [Option.isSome_none, Bool.false_eq_true, false_iff]
      omega
    · rename_i h
      push_neg at h
      have hlt : (normIdx xs.length i).toNat < xs.length := by omega
      rw [List.get?_eq_get hlt]
      simp only [Option.map_some', Option.isSome_some, true_iff]
      omega
  · rw [seqSet]
    split
    · rename_i h
      simp only [Option.isSome_none, Bool.false_eq_true, false_iff]
      omega
    · rename_i h
      push_neg at h
      simp only [Option.isSome_some, true_iff]
      omega

/-- Witness for the corrected C9: `get(0)` succeeds on a singleton,
`insert(-1)` and `set(-1)` succeed through normalization, `remove(0)` fails
on an empty sequence. -/
theorem positional_index_guards_witness :
    (seqGet [⟨0, 10, .IncludeStartExcludeEnd⟩] 0).isSome = true ∧
    (seqInsert [⟨0, 10, .IncludeStartExcludeEnd⟩] (-1)
      ⟨10, 20, .IncludeStartExcludeEnd⟩).isSome = true ∧
    seqRemove ([] : List Period) 0 = none ∧
    (seqSet [⟨0, 10, .IncludeStartExcludeEnd⟩] (-1)
      ⟨10, 20, .IncludeStartExcludeEnd⟩).isSome = true := by
  refine ⟨(positional_index_guards.1 _ 0).mpr (by decide),
    (positional_index_guards.2.1 _ (-1) _).mpr (by decide), ?_,
    (positional_index_guards.2.2.2 _ (-1) _).mpr (by decide)⟩
  have h2 : ¬ (seqRemove ([] : List Period) 0).isSome = true := by
    rw [positional_index_guards.2.2.1 ([] : List Period) 0]
    decide
  exact Option.not_isSome_iff_eq_none.mp h2

/-- Counterexample to C2 as stated: two value-equal but independently
constructed periods are distinct references, and `union`'s `Set`-based
dedup keeps both — the interval value occurs twice in the result, not
once. -/
theorem union_reference_dedup_cex :
    (union [⟨0, ⟨0, 10, .IncludeStartExcludeEnd⟩⟩]
        [⟨1, ⟨0, 10, .IncludeStartExcludeEnd⟩⟩]).map PRef.val =
      [⟨0, 10, .IncludeStartExcludeEnd⟩, ⟨0, 10, .IncludeStartExcludeEnd⟩] ∧
    ((union [⟨0, ⟨0, 10, .IncludeStartExcludeEnd⟩⟩]
        [⟨1, ⟨0, 10, .IncludeStartExcludeEnd⟩⟩]).map PRef.val).count
      ⟨0, 10, .IncludeStartExcludeEnd⟩ = 2 := by
  decide

/-- Claim C2 (corrected): for non-empty operands, `union` deduplicates by
object reference (not value equality) and never merges: each reference
occurs at most once in the result, every input reference is represented,
nothing but input references appear, and the result is sorted ascending by
start time. (When an operand is empty the other operand is returned
unchanged.) -/
theorem union_dedups_by_reference (xs ys : List PRef)
    (hxs : xs ≠ []) (hys : ys ≠ []) :
    ((union xs ys).map PRef.id).Nodup ∧
    (∀ r ∈ xs ++ ys, ∃ r2 ∈ union xs ys, r2.id = r.id) ∧
    (∀ r ∈ union xs ys, r ∈ xs ++ ys) ∧
    (union xs ys).Sorted (fun r s => r.val.startTime ≤ s.val.startTime) := by
  obtain ⟨x, xs', rfl⟩ := List.exists_cons_of_ne_nil hxs
  obtain ⟨y, ys', rfl⟩ := List.exists_cons_of_ne_nil hys
  have huni : union (x :: xs') (y :: ys') =
      sortByKey (fun r => r.val.startTime)
        (unionDedup [] ((x :: xs') ++ (y :: ys'))) := by
    simp [union]
  have hperm := sortByKey_perm (fun r : PRef => r.val.startTime)
    (unionDedup [] ((x :: xs') ++ (y :: ys')))
  refine ⟨?_, ?_, ?_, ?_⟩
  · rw [huni]
    exact (List.Perm.nodup_iff (hperm.map PRef.id)).mpr
      (unionDedup_ids_nodup ((x :: xs') ++ (y :: ys')) [])
  · intro r hr
    obtain ⟨r2, hr2, hid⟩ :=
      unionDedup_covers ((x :: xs') ++ (y :: ys')) [] r hr (by simp)
    refine ⟨r2, ?_, hid⟩
    rw [huni]
    exact hperm.mem_iff.mpr hr2
  · intro r hr
    rw [huni] at hr
    exact (unionDedup_sublist ((x :: xs') ++ (y :: ys')) []).subset
      (hperm.mem_iff.mp hr)
  · rw [huni]
    exact sortByKey_sorted _ _

/-- Witness for the corrected C2 at the spec's scenario: `A.union(B)` has
count 3 and carries the three original intervals (three distinct
references) unchanged, sorted by start. -/
theorem union_dedups_by_reference_witness :
    union refsA refsB = [⟨0, pJan01Jan15⟩, ⟨2, pJan10Jan25⟩, ⟨1, pFeb01Feb15⟩] ∧
    (union refsA refsB).length = 3 ∧
    ((union refsA refsB).map PRef.id).Nodup ∧
    (union refsA refsB).map PRef.val = [pJan01Jan15, pJan10Jan25, pFeb01Feb15] := by
  refine ⟨by decide, by decide,
    (union_dedups_by_reference refsA refsB (by decide) (by decide)).1, by decide⟩

/-- Claim C4 (confirmed): `merge` is idempotent on start-sorted sequences
of valid intervals — merging an already-merged sequence changes nothing,
both as backing lists and under `Sequence.equals` value equality. -/
theorem merge_idempotent (l : List Period) (hv : AllValid l) (hs : SortedByStart l) :
    merge (merge l) = merge l ∧ seqEquals (merge (merge l)) (merge l) = true := by
  have h := merge_fixpoint l hv hs
  exact ⟨h, by rw [h]; exact seqEquals_refl _⟩

/-- Witness for C4 on a concrete sorted sequence with an overlapping pair. -/
theorem merge_idempotent_witness :
    AllValid [⟨0, 10, .IncludeStartExcludeEnd⟩, ⟨5, 20, .IncludeStartExcludeEnd⟩,
      ⟨30, 40, .IncludeStartExcludeEnd⟩] ∧
    SortedByStart [⟨0, 10, .IncludeStartExcludeEnd⟩, ⟨5, 20, .IncludeStartExcludeEnd⟩,
      ⟨30, 40, .IncludeStartExcludeEnd⟩] ∧
    merge [⟨0, 10, .IncludeStartExcludeEnd⟩, ⟨5, 20, .IncludeStartExcludeEnd⟩,
      ⟨30, 40, .IncludeStartExcludeEnd⟩] =
      [⟨0, 20, .IncludeStartExcludeEnd⟩, ⟨30, 40, .IncludeStartExcludeEnd⟩] ∧
    merge (merge [⟨0, 10, .IncludeStartExcludeEnd⟩, ⟨5, 20, .IncludeStartExcludeEnd⟩,
      ⟨30, 40, .IncludeStartExcludeEnd⟩]) =
      merge [⟨0, 10, .IncludeStartExcludeEnd⟩, ⟨5, 20, .IncludeStartExcludeEnd⟩,
        ⟨30, 40, .IncludeStartExcludeEnd⟩] := by
  refine ⟨by decide, by decide, by decide, ?_⟩
  exact (merge_idempotent _ (by decide) (by decide)).1

/-- Counterexample to C6 as stated: `sortByDuration` (a `sort()` with a
duration comparator) applied to a start-sorted sequence yields a sequence
that is not sorted by start time. -/
theorem sort_breaks_start_order_cex :
    SortedByStart [⟨0, 100, .IncludeStartExcludeEnd⟩,
      ⟨50, 60, .IncludeStartExcludeEnd⟩] ∧
    ¬ SortedByStart (sortByDuration [⟨0, 100, .IncludeStartExcludeEnd⟩,
      ⟨50, 60, .IncludeStartExcludeEnd⟩]) := by
  have hsd : sortByDuration [⟨0, 100, .IncludeStartExcludeEnd⟩,
      ⟨50, 60, .IncludeStartExcludeEnd⟩] =
      [⟨50, 60, .IncludeStartExcludeEnd⟩, ⟨0, 100, .IncludeStartExcludeEnd⟩] := by
    norm_num [sortByDuration, seqCtor, sortByKey, insertByKey]
  refine ⟨by decide, ?_⟩
  rw [hsd]
  decide

/-- Claim C6 (corrected): sequences constructed without order preservation
are sorted ascending by start time, stably with respect to insertion order
for equal start times, and the set-algebra operations preserve/establish
start-sortedness on start-sorted (for `merge`, also valid) inputs; but a
sequence produced by `sort()` is ordered by the supplied comparator, not
necessarily by start time. -/
theorem sortedness_invariant :
    (∀ l : List Period, SortedByStart (seqCtor l false)) ∧
    (∀ (l : List Period) (t : ℚ),
      (seqCtor l false).filter (fun p => decide (p.startTime = t)) =
        l.filter (fun p => decide (p.startTime = t))) ∧
    (∀ xs ys : List PRef,
      xs.Sorted (fun r s => r.val.startTime ≤ s.val.startTime) →
      ys.Sorted (fun r s => r.val.startTime ≤ s.val.startTime) →
      (union xs ys).Sorted (fun r s => r.val.startTime ≤ s.val.startTime)) ∧
    (∀ xs ys : List Period, SortedByStart xs → SortedByStart ys →
      SortedByStart (intersect xs ys)) ∧
    (∀ xs ys : List Period, SortedByStart xs → SortedByStart (subtract xs ys)) ∧
    (∀ l : List Period, AllValid l → SortedByStart l → SortedByStart (merge l)) := by
  refine ⟨seqCtor_false_sorted, fun l t => ?_, fun xs ys hx hy => ?_,
    fun xs ys hx hy => ?_, fun xs ys hx => ?_, fun l hv hs => merge_sorted_of l hv hs⟩
  · simp only [seqCtor, Bool.false_eq_true, if_false]
    exact sortByKey_filter_key Period.startTime l t
  · rw [union]
    split
    · exact hy
    · split
      · exact hx
      · exact sortByKey_sorted _ _
  · rw [intersect]
    split
    · simp [SortedByStart]
    · simp only [seqCtor, if_true]
      exact intersectLoop_sorted xs ys hx hy
  · cases xs with
    | nil => simp [subtract, SortedByStart]
    | cons x xs' =>
      cases ys with
      | nil =>
        simpa [subtract] using hx
      | cons y ys' =>
        simp only [subtract, List.isEmpty_cons, Bool.false_eq_true, not_false_eq_true,
          if_false, seqCtor, if_true]
        exact hx.filter _

/-- Witness for the corrected C6: the sorting constructor sorts an unsorted
input; intersect/subtract/merge outputs of the spec's scenario sequences
are start-sorted. -/
theorem sortedness_invariant_witness :
    SortedByStart (seqCtor [⟨50, 60, .IncludeStartExcludeEnd⟩,
      ⟨0, 100, .IncludeStartExcludeEnd⟩] false) ∧
    SortedByStart (intersect seqA seqB) ∧
    SortedByStart (subtract seqA seqB) ∧
    SortedByStart (merge seqA) := by
  exact ⟨sortedness_invariant.1 _,
    sortedness_invariant.2.2.2.1 seqA seqB (by decide) (by decide),
    sortedness_invariant.2.2.2.2.1 seqA seqB (by decide),
    sortedness_invariant.2.2.2.2.2 seqA (by decide) (by decide)⟩

end PeriodSeq
